import Mathlib

/-!
Verification of the hydra python sweeper plugin.

Shallow embedding of `hydra_plugins/python_sweeper_plugin/python_sweeper.py`
and `hydra_plugins/python_sweeper_plugin/utils.py`.  Override values are kept
as strings (the plugin only ever renders them with an f-string); the hydra
`Override` objects produced by the external override parser are modelled by
`CliOverride`, which records exactly what `_make_cli_overrides` reads from
them: the raw key element (with any leading plus signs) and, for a sweep
override, the ordered candidate value strings.  Resolution of an entrypoint
identifier (hydra's `get_method`) is modelled by a function
`String → Option ...`; `none` models the resolution error that `get_method`
raises, and `Except` threads that error to the caller exactly as a Python
exception would propagate out of `sweep`.
-/

/-- Python's `s.lstrip('+')`: remove every leading `'+'` character of `s`.
Used by `merge_override_pairs` (on CLI keys) and by `compress_override`. -/
def lstripPlus (s : String) : String :=
  ⟨s.data.dropWhile (fun c => c == '+')⟩

/-- One parsed CLI override, as consumed by `_make_cli_overrides`:
either a sweep override (`key=v1,v2,...`, giving the key element and the
ordered candidate values from `sweep_string_iterator`) or a fixed override
(`key=value`).  The key element retains any leading `'+'`. -/
inductive CliOverride where
  | sweep (key : String) (choices : List String)
  | fixed (key : String) (value : String)
deriving DecidableEq

/-- The raw key element of a CLI override (`override.get_key_element()`). -/
def CliOverride.key : CliOverride → String
  | .sweep k _ => k
  | .fixed k _ => k

/-- The per-override choice list built in the loop of `_make_cli_overrides`:
a sweep contributes `[(key, val) for val in sweep_choices]`, a fixed
override contributes the singleton `[(key, val)]`. -/
def axisPairs : CliOverride → List (String × String)
  | .sweep k cs => cs.map (fun v => (k, v))
  | .fixed k v => [(k, v)]

/-- `itertools.product(*lists)` on a list of lists, in row-major order
(first list varies slowest), each tuple represented as a `List`. -/
def listProd {α : Type} : List (List α) → List (List α)
  | [] => [[]]
  | l :: ls => l.flatMap (fun x => (listProd ls).map (fun c => x :: c))

/-- `itertools.product(a, b)` for exactly two iterables, as used in
`_make_batches`. -/
def prodPairs {α β : Type} (a : List α) (b : List β) : List (α × β) :=
  a.flatMap (fun x => b.map (fun y => (x, y)))

/-- `PythonSweeper._make_cli_overrides`: build the per-override choice
lists and return their cartesian product (one list of `(key, value)`
pairs per combination of CLI axis choices). -/
def _make_cli_overrides (cli_overrides : List CliOverride) : List (List (String × String)) :=
  listProd (cli_overrides.map axisPairs)

/-- The sweeper's configuration surface (`SweeperConfig` dataclass):
`max_batch_size`, the single configured `entrypoint` identifier, and
`remove_duplicates`. -/
structure SweeperConfig where
  max_batch_size : Option Int
  entrypoint : Option String
  remove_duplicates : Bool

/-- `PythonSweeper._make_python_overrides`: with no configured entrypoint
return `[[]]` (a single empty override set); otherwise resolve the
identifier (`get_method`, modelled by `resolve`; `none` models the raised
resolution error) and invoke it, returning its list of override sets. -/
def _make_python_overrides (resolve : String → Option (List (List (String × String))))
    (entrypoint : Option String) : Except String (List (List (String × String))) :=
  match entrypoint with
  | none => Except.ok [[]]
  | some e =>
    match resolve e with
    | none => Except.error e
    | some overrides => Except.ok overrides

/-- `merge_override_pairs` (inner function of `_make_batches`): collect the
`lstrip('+')`-stripped CLI keys, then keep the CLI pairs followed by every
python pair whose raw key is not among the stripped CLI keys.  (Note the
source compares the python pair's raw key, not its stripped key, against
the stripped CLI key set.) -/
def merge_override_pairs (cli_overrides python_overrides : List (String × String)) :
    List (String × String) :=
  let cli_override_keys := cli_overrides.map (fun t => lstripPlus t.1)
  cli_overrides ++ python_overrides.filter (fun t => !(cli_override_keys.contains t.1))

/-- The `batches` value of `_make_batches` before rendering: merge every
pair of the product of CLI combinations and python override sets. -/
def merged_batches (cli_overrides : List CliOverride)
    (python_overrides : List (List (String × String))) : List (List (String × String)) :=
  (prodPairs (_make_cli_overrides cli_overrides) python_overrides).map
    (fun pr => merge_override_pairs pr.1 pr.2)

/-- First-occurrence deduplication with an explicit seen-set, keyed by
`f`.  With `f = id` this is `list(dict.fromkeys(batches))` from
`_make_batches`; with `f` the stripped key it is the loop of
`compress_override` (`result_keys` is the seen set; a Lean list stands for
the Python set, only membership is used). -/
def keepFirstByAux {α β : Type} (f : α → β) [DecidableEq β] : List α → List β → List α
  | [], _ => []
  | x :: xs, seen =>
    if f x ∈ seen then keepFirstByAux f xs seen
    else x :: keepFirstByAux f xs (f x :: seen)

/-- `PythonSweeper._make_batches`, parameterized by the python override
sets (the source obtains them from `self._make_python_overrides()`): merge
every (CLI combination, python override set) pair, render each merged
combination to `f"{key}={value}"` strings, and, when `remove_duplicates`
is set, keep first occurrences only (`list(dict.fromkeys(batches))`). -/
def _make_batches (remove_duplicates : Bool) (cli_overrides : List CliOverride)
    (python_overrides : List (List (String × String))) : List (List String) :=
  let rendered := (merged_batches cli_overrides python_overrides).map
    (fun batch => batch.map (fun p => p.1 ++ "=" ++ p.2))
  if remove_duplicates then keepFirstByAux id rendered [] else rendered

/-- The loop of `more_itertools.chunked`: repeatedly `take n` elements
until the next take is empty.  The structural fuel is the length of the
list; each step with `0 < n` consumes at least one element, so
`l.length ≤ fuel` makes the fuel irrelevant. -/
def chunkedFuel {α : Type} (n : Nat) : Nat → List α → List (List α)
  | _, [] => []
  | 0, _ :: _ => []
  | fuel + 1, x :: xs => ((x :: xs).take n) :: chunkedFuel n fuel ((x :: xs).drop n)

/-- `more_itertools.chunked(l, n)`: with `n = 0` the first `take` already
returns the empty sentinel, so no chunk is produced at all; otherwise
split into consecutive chunks of `n`, the last one possibly smaller. -/
def chunked {α : Type} (l : List α) (n : Nat) : List (List α) :=
  if n = 0 then [] else chunkedFuel n l.length l

/-- `PythonSweeper._chunk_batches`: `max_batch_size` of `None` or `-1`
means one chunk of everything (chunk size = input length); otherwise use
the configured size.  (A configured size below `-1` would make Python's
`islice` raise; it is outside the behaviour exercised here.) -/
def _chunk_batches (max_batch_size : Option Int) (batches : List (List String)) :
    List (List (List String)) :=
  let n : Nat :=
    match max_batch_size with
    | none => batches.length
    | some m => if m = -1 then batches.length else m.toNat
  chunked batches n

/-- The dispatch loop of `PythonSweeper.sweep` (lines 149-155): launch each
chunk with the running `initial_job_idx`, which starts at `0` and grows by
the size of each dispatched chunk; collect the per-chunk results in
order. -/
def sweepLoop {ρ : Type} (launch : List (List String) → Nat → ρ) :
    List (List (List String)) → Nat → List ρ
  | [], _ => []
  | batch :: rest, initial_job_idx =>
    launch batch initial_job_idx :: sweepLoop launch rest (initial_job_idx + batch.length)

/-- `PythonSweeper.sweep`: resolve and run the configured entrypoint (any
resolution error propagates to the caller before anything is chunked or
launched), build the batches, chunk them, and run the dispatch loop.
Saving `multirun.yaml`, parsing the raw arguments and
`validate_batch_is_legal` are external collaborators and not modelled. -/
def sweep {ρ : Type} (resolve : String → Option (List (List (String × String))))
    (cfg : SweeperConfig) (launch : List (List String) → Nat → ρ)
    (cli_overrides : List CliOverride) : Except String (List ρ) :=
  match _make_python_overrides resolve cfg.entrypoint with
  | Except.error e => Except.error e
  | Except.ok python_overrides =>
    let batches := _make_batches cfg.remove_duplicates cli_overrides python_overrides
    let chunked_batches := _chunk_batches cfg.max_batch_size batches
    Except.ok (sweepLoop launch chunked_batches 0)

/-- `merge_overrides` from `utils.py`: cartesian product of any number of
override collections, concatenating (`sum(map(tuple, configs), start=())`)
the chosen override sets of each tuple. -/
def merge_overrides (overrides : List (List (List (String × String)))) :
    List (List (String × String)) :=
  (listProd overrides).map (fun configs => configs.flatten)

/-- Modelled from the spec: resolution of a configured list of entrypoint
identifiers.  The `entrypoints` list option is exercised by the repository
tests (`hydra.sweeper.entrypoints=[...]`) but the list-handling branch of
the plugin is not among the sources here, which only carry the single
`entrypoint` field; per the spec each identifier is resolved and invoked
as a no-argument callable, an unresolvable identifier being a fatal error
surfaced to the caller. -/
def resolveEntrypoints (resolve : String → Option (List (List (String × String)))) :
    List String → Except String (List (List (List (String × String))))
  | [] => Except.ok []
  | e :: es =>
    match resolve e with
    | none => Except.error e
    | some r =>
      match resolveEntrypoints resolve es with
      | Except.error err => Except.error err
      | Except.ok rs => Except.ok (r :: rs)

/-- Modelled from the spec: the multi-entrypoint variant of
`_make_python_overrides` — resolve and invoke every configured
entrypoint, then combine the per-entrypoint override sets with
`merge_overrides` (cartesian product, concatenation in entrypoint-list
order). -/
def _make_python_overrides_list (resolve : String → Option (List (List (String × String))))
    (entrypoints : List String) : Except String (List (List (String × String))) :=
  match resolveEntrypoints resolve entrypoints with
  | Except.error e => Except.error e
  | Except.ok rss => Except.ok (merge_overrides rss)

/-- `compress_override` from `utils.py`: one pass over the pairs, keeping
a pair iff its `lstrip('+')`-stripped key was not seen before, and
recording the stripped key as seen. -/
def compress_override (overrides : List (String × String)) : List (String × String) :=
  keepFirstByAux (fun p => lstripPlus p.1) overrides []

/-- Written from the spec's words, for comparison with the code: scan the
list keeping an explicit collection of already-visited elements, and keep
an element exactly when no earlier element has the same `f`-key; so each
group of `f`-equal elements is collapsed to its first occurrence, in
original order.  (Only membership in `prev` matters, so the visited
elements are accumulated in front.) -/
def specKeepFirstAux {α β : Type} (f : α → β) [DecidableEq β] :
    List α → List α → List α
  | [], _ => []
  | x :: xs, prev =>
    if f x ∈ prev.map f then specKeepFirstAux f xs (x :: prev)
    else x :: specKeepFirstAux f xs (x :: prev)

/-! ### Lemmas about first-occurrence deduplication -/

theorem keepFirstByAux_sublist {α β : Type} (f : α → β) [DecidableEq β] :
    ∀ (l : List α) (seen : List β), List.Sublist (keepFirstByAux f l seen) l := by
  intro l
  induction l with
  | nil => intro seen; simp [keepFirstByAux]
  | cons x xs ih =>
    intro seen
    simp only [keepFirstByAux]
    by_cases h : f x ∈ seen
    · rw [if_pos h]
      exact List.Sublist.cons x (ih seen)
    · rw [if_neg h]
      exact List.Sublist.cons₂ x (ih (f x :: seen))

theorem keepFirstByAux_nodup {α β : Type} (f : α → β) [DecidableEq β] :
    ∀ (l : List α) (seen : List β),
      ((keepFirstByAux f l seen).map f).Nodup ∧
        ∀ b ∈ (keepFirstByAux f l seen).map f, b ∉ seen := by
  intro l
  induction l with
  | nil => intro seen; simp [keepFirstByAux]
  | cons x xs ih =>
    intro seen
    simp only [keepFirstByAux]
    by_cases h : f x ∈ seen
    · rw [if_pos h]
      exact ih seen
    · rw [if_neg h]
      obtain ⟨hnd, hns⟩ := ih (f x :: seen)
      constructor
      · simp only [List.map_cons, List.nodup_cons]
        refine ⟨fun hmem => (hns _ hmem) (List.mem_cons_self _ _), hnd⟩
      · intro b hb
        simp only [List.map_cons, List.mem_cons] at hb
        rcases hb with rfl | hb
        · exact h
        · intro hbseen
          exact (hns b hb) (List.mem_cons_of_mem _ hbseen)

theorem keepFirstByAux_eq_spec {α β : Type} (f : α → β) [DecidableEq β] :
    ∀ (l : List α) (seen : List β) (prev : List α),
      (∀ b, b ∈ seen ↔ b ∈ prev.map f) →
      keepFirstByAux f l seen = specKeepFirstAux f l prev := by
  intro l
  induction l with
  | nil => intro seen prev _; simp [keepFirstByAux, specKeepFirstAux]
  | cons x xs ih =>
    intro seen prev hiff
    simp only [keepFirstByAux, specKeepFirstAux]
    by_cases h : f x ∈ seen
    · rw [if_pos h, if_pos ((hiff (f x)).mp h)]
      apply ih
      intro b
      simp only [List.map_cons, List.mem_cons]
      constructor
      · intro hb; exact Or.inr ((hiff b).mp hb)
      · rintro (rfl | hb)
        · exact h
        · exact (hiff b).mpr hb
    · rw [if_neg h, if_neg (fun hmem => h ((hiff (f x)).mpr hmem))]
      congr 1
      apply ih
      intro b
      simp only [List.map_cons, List.mem_cons]
      constructor
      · rintro (rfl | hb)
        · exact Or.inl rfl
        · exact Or.inr ((hiff b).mp hb)
      · rintro (rfl | hb)
        · exact Or.inl rfl
        · exact Or.inr ((hiff b).mpr hb)

theorem keepFirstByAux_covers {α β : Type} (f : α → β) [DecidableEq β] :
    ∀ (l : List α) (seen : List β) (x : α), x ∈ l →
      f x ∈ seen ∨ f x ∈ (keepFirstByAux f l seen).map f := by
  intro l
  induction l with
  | nil => intro seen x hx; cases hx
  | cons y ys ih =>
    intro seen x hx
    simp only [keepFirstByAux]
    by_cases h : f y ∈ seen
    · rw [if_pos h]
      rcases List.mem_cons.mp hx with rfl | hx2
      · exact Or.inl h
      · exact ih seen x hx2
    · rw [if_neg h]
      rcases List.mem_cons.mp hx with rfl | hx2
      · right; simp
      · rcases ih (f y :: seen) x hx2 with hin | hin
        · rcases List.mem_cons.mp hin with heq | hin2
          · right; rw [heq]; simp
          · exact Or.inl hin2
        · right
          simp only [List.map_cons, List.mem_cons]
          exact Or.inr hin

/-! ### Lemmas about the cartesian products -/

theorem length_flatMap_map {α β γ : Type} (l : List α) (M : List β) (g : α → β → γ) :
    (l.flatMap (fun x => M.map (g x))).length = l.length * M.length := by
  induction l with
  | nil => simp
  | cons x xs ih =>
    simp only [List.flatMap_cons, List.length_append, List.length_map, List.length_cons, ih]
    ring

theorem prodPairs_length {α β : Type} (a : List α) (b : List β) :
    (prodPairs a b).length = a.length * b.length :=
  length_flatMap_map a b (fun x y => (x, y))

theorem listProd_length {α : Type} : ∀ ls : List (List α),
    (listProd ls).length = (ls.map List.length).prod := by
  intro ls
  induction ls with
  | nil => simp [listProd]
  | cons l ls ih =>
    simp only [listProd, List.map_cons, List.prod_cons]
    rw [length_flatMap_map l (listProd ls) (fun x c => x :: c), ih]

theorem listProd_mem {α : Type} : ∀ (ls : List (List α)) (c : List α),
    c ∈ listProd ls ↔ List.Forall₂ (fun x s => x ∈ s) c ls := by
  intro ls
  induction ls with
  | nil =>
    intro c
    simp only [listProd, List.mem_singleton]
    constructor
    · rintro rfl; exact List.Forall₂.nil
    · intro h; cases h; rfl
  | cons l ls ih =>
    intro c
    simp only [listProd, List.mem_flatMap, List.mem_map]
    constructor
    · rintro ⟨x, hx, c2, hc2, rfl⟩
      exact List.Forall₂.cons hx ((ih c2).mp hc2)
    · intro h
      cases h with
      | cons hx hc => exact ⟨_, hx, _, (ih _).mpr hc, rfl⟩

theorem mem_prodPairs {α β : Type} (a : List α) (b : List β) (p : α × β) :
    p ∈ prodPairs a b ↔ p.1 ∈ a ∧ p.2 ∈ b := by
  constructor
  · intro h
    simp only [prodPairs, List.mem_flatMap, List.mem_map] at h
    obtain ⟨u, hu, v, hv, heq⟩ := h
    cases heq
    exact ⟨hu, hv⟩
  · intro h
    simp only [prodPairs, List.mem_flatMap, List.mem_map]
    exact ⟨p.1, h.1, p.2, h.2, rfl⟩

theorem axisPairs_fst (o : CliOverride) (p : String × String) (hp : p ∈ axisPairs o) :
    p.1 = o.key := by
  cases o with
  | sweep k cs =>
    simp only [axisPairs, List.mem_map] at hp
    obtain ⟨v, _, rfl⟩ := hp
    rfl
  | fixed k v =>
    simp only [axisPairs, List.mem_singleton] at hp
    rw [hp]
    rfl

theorem make_cli_overrides_keys (axes : List CliOverride) (c : List (String × String))
    (hc : c ∈ _make_cli_overrides axes) :
    c.map (fun t => lstripPlus t.1) = axes.map (fun o => lstripPlus o.key) := by
  rw [_make_cli_overrides, listProd_mem, List.forall₂_map_right_iff] at hc
  induction hc with
  | nil => rfl
  | cons hx _ ih =>
    simp only [List.map_cons, ih]
    congr 1
    rw [axisPairs_fst _ _ hx]

/-! ### The merge of one CLI combination with one entrypoint override set -/

theorem merge_override_pairs_unfold (c p : List (String × String)) :
    merge_override_pairs c p
      = c ++ p.filter (fun t => !((c.map (fun t => lstripPlus t.1)).contains t.1)) := rfl

theorem merge_override_pairs_nodup (c p : List (String × String))
    (h1 : (c.map (fun t => lstripPlus t.1)).Nodup)
    (h2 : (p.map (fun t => lstripPlus t.1)).Nodup)
    (h3 : ∀ t ∈ p, lstripPlus t.1 ∈ c.map (fun t => lstripPlus t.1) →
          t.1 ∈ c.map (fun t => lstripPlus t.1)) :
    ((merge_override_pairs c p).map (fun t => lstripPlus t.1)).Nodup := by
  rw [merge_override_pairs_unfold, List.map_append, List.nodup_append]
  refine ⟨h1, h2.sublist ((List.filter_sublist p).map _), ?_⟩
  intro k hkc hkf
  simp only [List.mem_map] at hkf
  obtain ⟨t, ht, rfl⟩ := hkf
  have htp := List.mem_filter.mp ht
  have hraw : t.1 ∈ c.map (fun t => lstripPlus t.1) := h3 t htp.1 hkc
  have hnotin : t.1 ∉ c.map (fun t => lstripPlus t.1) := by simpa using htp.2
  exact hnotin hraw

/-! ### Lemmas about chunking -/

theorem chunkedFuel_flatten {α : Type} (m : Nat) :
    ∀ (fuel : Nat) (l : List α), l.length ≤ fuel →
      (chunkedFuel (m + 1) fuel l).flatten = l := by
  intro fuel
  induction fuel with
  | zero =>
    intro l hl
    have : l = [] := List.length_eq_zero.mp (Nat.le_zero.mp hl)
    subst this
    simp [chunkedFuel]
  | succ f ih =>
    intro l hl
    cases l with
    | nil => simp [chunkedFuel]
    | cons x xs =>
      simp only [chunkedFuel, List.flatten_cons]
      rw [ih ((x :: xs).drop (m + 1)) (by
        rw [List.length_drop]
        simp only [List.length_cons] at hl ⊢
        omega)]
      exact List.take_append_drop (m + 1) (x :: xs)

theorem chunkedFuel_length {α : Type} (m : Nat) :
    ∀ (fuel : Nat) (l : List α), l.length ≤ fuel →
      (chunkedFuel (m + 1) fuel l).length = (l.length + m) / (m + 1) := by
  intro fuel
  induction fuel with
  | zero =>
    intro l hl
    have : l = [] := List.length_eq_zero.mp (Nat.le_zero.mp hl)
    subst this
    simp only [chunkedFuel, List.length_nil, Nat.zero_add]
    rw [Nat.div_eq_of_lt (by omega)]
  | succ f ih =>
    intro l hl
    cases l with
    | nil =>
      simp only [chunkedFuel, List.length_nil, Nat.zero_add]
      rw [Nat.div_eq_of_lt (by omega)]
    | cons x xs =>
      simp only [chunkedFuel, List.length_cons]
      rw [ih ((x :: xs).drop (m + 1)) (by
        rw [List.length_drop]
        simp only [List.length_cons] at hl ⊢
        omega)]
      rw [List.length_drop]
      simp only [List.length_cons]
      have hr : xs.length + 1 + m = xs.length + (m + 1) := by omega
      rw [hr, Nat.add_div_right _ (Nat.succ_pos m)]
      by_cases hc : xs.length ≤ m
      · have h1 : xs.length + 1 - (m + 1) = 0 := by omega
        rw [h1, Nat.zero_add, Nat.div_eq_of_lt (by omega), Nat.div_eq_of_lt (by omega)]
      · have h2 : xs.length + 1 - (m + 1) + m = xs.length := by omega
        rw [h2]

theorem chunkedFuel_ne_nil {α : Type} (m : Nat) (fuel : Nat) (x : α) (xs : List α)
    (h : (x :: xs).length ≤ fuel) : chunkedFuel (m + 1) fuel (x :: xs) ≠ [] := by
  cases fuel with
  | zero => exact absurd h (by simp)
  | succ f => simp [chunkedFuel]

theorem chunkedFuel_dropLast {α : Type} (m : Nat) :
    ∀ (fuel : Nat) (l : List α), l.length ≤ fuel →
      ∀ c ∈ (chunkedFuel (m + 1) fuel l).dropLast, c.length = m + 1 := by
  intro fuel
  induction fuel with
  | zero =>
    intro l hl c hc
    have : l = [] := List.length_eq_zero.mp (Nat.le_zero.mp hl)
    subst this
    simp [chunkedFuel] at hc
  | succ f ih =>
    intro l hl c hc
    cases l with
    | nil => simp [chunkedFuel] at hc
    | cons x xs =>
      simp only [chunkedFuel] at hc
      rcases hdrop : (x :: xs).drop (m + 1) with _ | ⟨y, ys⟩
      · rw [hdrop] at hc
        simp [chunkedFuel] at hc
      · rw [hdrop] at hc
        have hld := List.length_drop (m + 1) (x :: xs)
        rw [hdrop] at hld
        simp only [List.length_cons] at hld hl
        have hbound : (y :: ys).length ≤ f := by
          simp only [List.length_cons]
          omega
        have hne : chunkedFuel (m + 1) f (y :: ys) ≠ [] := chunkedFuel_ne_nil m f y ys hbound
        rw [List.dropLast_cons_of_ne_nil hne] at hc
        rcases List.mem_cons.mp hc with rfl | hc2
        · rw [List.length_take]
          simp only [List.length_cons]
          exact Nat.min_eq_left (by omega)
        · exact ih (y :: ys) hbound c hc2

theorem chunkedFuel_getLast {α : Type} (m : Nat) :
    ∀ (fuel : Nat) (l : List α), l.length ≤ fuel →
      ∀ c, (chunkedFuel (m + 1) fuel l).getLast? = some c →
        c.length = if l.length % (m + 1) = 0 then m + 1 else l.length % (m + 1) := by
  intro fuel
  induction fuel with
  | zero =>
    intro l hl c hc
    have : l = [] := List.length_eq_zero.mp (Nat.le_zero.mp hl)
    subst this
    simp [chunkedFuel] at hc
  | succ f ih =>
    intro l hl c hc
    cases l with
    | nil => simp [chunkedFuel] at hc
    | cons x xs =>
      simp only [chunkedFuel] at hc
      rcases hdrop : (x :: xs).drop (m + 1) with _ | ⟨y, ys⟩
      · rw [hdrop] at hc
        have hle : (x :: xs).length ≤ m + 1 := by
          have := List.length_drop (m + 1) (x :: xs)
          rw [hdrop] at this
          simp only [List.length_nil] at this
          simp only [List.length_cons] at this ⊢
          omega
        simp only [chunkedFuel, List.getLast?_singleton, Option.some.injEq] at hc
        subst hc
        rw [List.length_take]
        simp only [List.length_cons] at hle ⊢
        by_cases heq : xs.length + 1 = m + 1
        · rw [heq, Nat.mod_self, if_pos rfl]
          exact Nat.min_self (m + 1)
        · rw [if_neg (by
            rw [Nat.mod_eq_of_lt (by omega)]
            omega)]
          rw [Nat.mod_eq_of_lt (by omega)]
          exact Nat.min_eq_right (by omega)
      · rw [hdrop] at hc
        have hld := List.length_drop (m + 1) (x :: xs)
        rw [hdrop] at hld
        simp only [List.length_cons] at hld hl
        have hbound : (y :: ys).length ≤ f := by
          simp only [List.length_cons]
          omega
        have hne : chunkedFuel (m + 1) f (y :: ys) ≠ [] := chunkedFuel_ne_nil m f y ys hbound
        obtain ⟨r, rs, hrs⟩ := List.exists_cons_of_ne_nil hne
        rw [hrs, List.getLast?_cons_cons] at hc
        have := ih (y :: ys) hbound c (by rw [hrs]; exact hc)
        have hmod : (y :: ys).length % (m + 1) = (xs.length + 1) % (m + 1) := by
          simp only [List.length_cons]
          have hsum : xs.length + 1 = ys.length + 1 + (m + 1) := by omega
          rw [hsum, Nat.add_mod_right]
        rw [hmod] at this
        simp only [List.length_cons] at this ⊢
        exact this

theorem chunked_pos {α : Type} (l : List α) (n : Nat) (h : 0 < n) :
    chunked l n = chunkedFuel n l.length l := by
  rw [chunked, if_neg (by omega)]

theorem chunked_full {α : Type} (l : List α) (h : l ≠ []) : chunked l l.length = [l] := by
  cases l with
  | nil => exact absurd rfl h
  | cons x xs =>
    rw [chunked_pos _ _ (by simp)]
    have h1 : (x :: xs).take (x :: xs).length = x :: xs := List.take_length (x :: xs)
    have h2 : (x :: xs).drop (x :: xs).length = [] := List.drop_length (x :: xs)
    simp only [List.length_cons] at h1 h2
    simp only [List.length_cons, chunkedFuel, h1, h2]

theorem chunk_batches_some (n : Nat) (h : 0 < n) (l : List (List String)) :
    _chunk_batches (some (n : Int)) l = chunked l n := by
  show chunked l (if (n : Int) = -1 then l.length else ((n : Int)).toNat) = chunked l n
  rw [if_neg (by omega), Int.toNat_natCast]

theorem chunk_batches_none (l : List (List String)) :
    _chunk_batches none l = chunked l l.length := rfl

theorem chunk_batches_neg_one (l : List (List String)) :
    _chunk_batches (some (-1)) l = chunked l l.length := by
  show chunked l (if (-1 : Int) = -1 then l.length else ((-1 : Int)).toNat)
      = chunked l l.length
  rw [if_pos rfl]

theorem chunk_batches_zero (l : List (List String)) : _chunk_batches (some 0) l = [] := by
  show chunked l (if (0 : Int) = -1 then l.length else ((0 : Int)).toNat) = []
  rw [if_neg (by decide)]
  rfl

/-! ### Lemmas about the dispatch loop -/

theorem sweepLoop_length {ρ : Type} (launch : List (List String) → Nat → ρ) :
    ∀ (chunks : List (List (List String))) (k : Nat),
      (sweepLoop launch chunks k).length = chunks.length := by
  intro chunks
  induction chunks with
  | nil => intro k; rfl
  | cons b rest ih => intro k; simp only [sweepLoop, List.length_cons, ih]

theorem sweepLoop_getElem {ρ : Type} (launch : List (List String) → Nat → ρ) :
    ∀ (chunks : List (List (List String))) (k i : Nat),
      (sweepLoop launch chunks k)[i]? =
        (chunks[i]?).map (fun b => launch b (k + ((chunks.take i).map List.length).sum)) := by
  intro chunks
  induction chunks with
  | nil => intro k i; simp [sweepLoop]
  | cons b rest ih =>
    intro k i
    cases i with
    | zero => simp [sweepLoop]
    | succ j =>
      simp only [sweepLoop, List.getElem?_cons_succ, List.take_succ_cons, List.map_cons,
        List.sum_cons]
      rw [ih (k + b.length) j]
      congr 1
      funext b2
      rw [Nat.add_assoc]

/-! ### Lemma about entrypoint resolution -/

theorem resolveEntrypoints_ok (resolve : String → Option (List (List (String × String))))
    (eps : List String) (rss : List (List (List (String × String))))
    (h : List.Forall₂ (fun e r => resolve e = some r) eps rss) :
    resolveEntrypoints resolve eps = Except.ok rss := by
  induction h with
  | nil => rfl
  | @cons e r eps2 rss2 he _ ih =>
    simp only [resolveEntrypoints]
    rw [he, ih]

/-! ### Claim theorems -/

/-- Claim C1 (code bug): the claim fails on the code.  For the CLI
combination `[("foo", "1")]` merged with the entrypoint combination
`[("+foo", "2")]` — both of which target the config path `foo` under
stripped-key equality, as the second conjunct records — the rendered
output of the batch builder still contains the entrypoint-supplied value
`"+foo=2"` instead of excluding it: `merge_override_pairs` tests the raw
entrypoint key, not its stripped key, against the set of stripped CLI
keys, so a `'+'`-prefixed entrypoint key never matches, contradicting the
function's own docstring (CLI overrides have higher precedence on the
same key). -/
theorem c1_cli_precedence_failing_eval :
    _make_batches false [CliOverride.fixed "foo" "1"] [[("+foo", "2")]]
        = [["foo=1", "+foo=2"]]
      ∧ lstripPlus "+foo" = lstripPlus "foo" :=
  ⟨by decide, by decide⟩

/-- Claim C3, counterexample: with no CLI overrides and a single
entrypoint override set `[("a", "1"), ("a", "2")]`, the batch builder
produces the fully-merged combination `[("a", "1"), ("a", "2")]`, which
holds two overrides targeting the same config path `"a"`; the claimed
invariant is false as stated. -/
theorem c3_counterexample :
    merged_batches [] [[("a", "1"), ("a", "2")]] = [[("a", "1"), ("a", "2")]]
      ∧ ¬ (([(("a" : String), ("1" : String)), ("a", "2")].map
          (fun t => lstripPlus t.1)).Nodup) :=
  ⟨by decide, by decide⟩

/-- Claim C3 (amended): every fully-merged combination of the batch
builder has pairwise distinct stripped keys, provided (a) the CLI axes'
stripped keys are pairwise distinct, (b) each entrypoint override set has
pairwise distinct stripped keys, and (c) every entrypoint override whose
stripped key collides with a CLI stripped key carries that key in
unprefixed form (its raw key is itself among the stripped CLI keys). -/
theorem c3_no_duplicate_config_paths (axes : List CliOverride)
    (pys : List (List (String × String))) (b : List (String × String))
    (hcli : (axes.map (fun o => lstripPlus o.key)).Nodup)
    (hpy : ∀ p ∈ pys,
      ((p.map (fun t => lstripPlus t.1)).Nodup ∧
        ∀ t ∈ p, lstripPlus t.1 ∈ axes.map (fun o => lstripPlus o.key) →
          t.1 ∈ axes.map (fun o => lstripPlus o.key)))
    (hb : b ∈ merged_batches axes pys) :
    (b.map (fun t => lstripPlus t.1)).Nodup := by
  rw [merged_batches] at hb
  simp only [List.mem_map] at hb
  obtain ⟨pr, hpr, rfl⟩ := hb
  rw [mem_prodPairs] at hpr
  obtain ⟨hc, hp⟩ := hpr
  have hkeys := make_cli_overrides_keys axes pr.1 hc
  obtain ⟨hnd, hcond⟩ := hpy pr.2 hp
  apply merge_override_pairs_nodup
  · rw [hkeys]; exact hcli
  · exact hnd
  · intro t ht
    rw [hkeys]
    exact hcond t ht

/-- Witness for `c3_no_duplicate_config_paths` at a concrete input. -/
theorem c3_no_duplicate_config_paths_witness :
    [(("foo" : String), ("1" : String)), ("bar", "2"), ("+baz", "3")]
        ∈ merged_batches [CliOverride.fixed "foo" "1"] [[("bar", "2"), ("+baz", "3")]]
      ∧ (([(("foo" : String), ("1" : String)), ("bar", "2"), ("+baz", "3")].map
          (fun t => lstripPlus t.1)).Nodup) :=
  ⟨by decide, c3_no_duplicate_config_paths [CliOverride.fixed "foo" "1"]
    [[("bar", "2"), ("+baz", "3")]] [("foo", "1"), ("bar", "2"), ("+baz", "3")]
    (by decide) (by decide) (by decide)⟩

/-- Claim C4: for CLI axis specifications with candidate counts
`n₁,…,nₖ` and a fixed list of `m` entrypoint combinations, the batch
builder produces exactly `(n₁×…×nₖ)×m` rendered combinations before
deduplication; `k = 0` gives the single empty CLI combination and no
configured entrypoint gives the single empty override set (`m = 1`). -/
theorem c4_combination_count (axes : List CliOverride)
    (pys : List (List (String × String)))
    (resolve : String → Option (List (List (String × String)))) :
    (_make_batches false axes pys).length
        = (axes.map (fun o => (axisPairs o).length)).prod * pys.length
      ∧ _make_cli_overrides [] = [[]]
      ∧ _make_python_overrides resolve none = Except.ok [[]] := by
  refine ⟨?_, rfl, rfl⟩
  show (((prodPairs (listProd (axes.map axisPairs)) pys).map
      (fun pr => merge_override_pairs pr.1 pr.2)).map
      (fun batch => batch.map (fun p => p.1 ++ "=" ++ p.2))).length = _
  rw [List.length_map, List.length_map, prodPairs_length, listProd_length, List.map_map]
  rfl

/-- Claim C5: enabling `remove_duplicates` yields a subsequence of the
non-deduplicated rendered batch list in which each group of equal
rendered tuples is collapsed to its first occurrence (the third conjunct,
via the spec-side first-occurrence scan) and no duplicates remain; and
the CLI axes `foo=1,1`, `+bar=1,1` with `remove_duplicates` yield exactly
the single combination `["foo=1", "+bar=1"]`. -/
theorem c5_remove_duplicates (axes : List CliOverride)
    (pys : List (List (String × String))) :
    List.Sublist (_make_batches true axes pys) (_make_batches false axes pys)
      ∧ (_make_batches true axes pys).Nodup
      ∧ _make_batches true axes pys = specKeepFirstAux id (_make_batches false axes pys) []
      ∧ _make_batches true [CliOverride.sweep "foo" ["1", "1"],
          CliOverride.sweep "+bar" ["1", "1"]] [[]] = [["foo=1", "+bar=1"]] := by
  have hdef : _make_batches true axes pys
      = keepFirstByAux id (_make_batches false axes pys) [] := rfl
  refine ⟨?_, ?_, ?_, by decide⟩
  · rw [hdef]
    exact keepFirstByAux_sublist id _ []
  · rw [hdef]
    have h := (keepFirstByAux_nodup id (_make_batches false axes pys) []).1
    rwa [List.map_id] at h
  · rw [hdef]
    exact keepFirstByAux_eq_spec id _ [] [] (by simp)

/-- Claim C9: `compress_override` keeps, for each config path (keys
compared after stripping all leading `'+'`), exactly the first pair with
that stripped key, in original order (first conjunct, via the spec-side
first-occurrence scan keyed by the stripped key); the result is a
subsequence of the input, contains no two pairs with equal stripped keys
(so a `'+'`-prefixed and an unprefixed form of one key cannot both
survive), and covers every stripped key of the input. -/
theorem c9_compress_override (l : List (String × String)) :
    compress_override l = specKeepFirstAux (fun p => lstripPlus p.1) l []
      ∧ List.Sublist (compress_override l) l
      ∧ ((compress_override l).map (fun p => lstripPlus p.1)).Nodup
      ∧ ∀ p ∈ l, lstripPlus p.1 ∈ (compress_override l).map (fun q => lstripPlus q.1) := by
  refine ⟨?_, ?_, ?_, ?_⟩
  · exact keepFirstByAux_eq_spec _ l [] [] (by simp)
  · exact keepFirstByAux_sublist _ l []
  · exact (keepFirstByAux_nodup _ l []).1
  · intro p hp
    rcases keepFirstByAux_covers (fun p => lstripPlus p.1) l [] p hp with h | h
    · exact absurd h (List.not_mem_nil _)
    · exact h

/-- Claim C6: for a flat batch list of length `L` and `max_batch_size`
`n > 0` the chunker returns `⌈L/n⌉ = (L+n-1)/n` chunks, all but the last
of size exactly `n`, the last of size `L mod n` (or `n` when `n` divides
`L`), and the chunks concatenate back to the input; an absent (`None`) or
`-1` size turns a non-empty list into a single chunk containing
everything; an empty input yields zero chunks. -/
theorem c6_chunking (l : List (List String)) (n : Nat) (h : 0 < n) :
    (_chunk_batches (some (n : Int)) l).length = (l.length + n - 1) / n
      ∧ (∀ c ∈ (_chunk_batches (some (n : Int)) l).dropLast, c.length = n)
      ∧ (∀ c, (_chunk_batches (some (n : Int)) l).getLast? = some c →
          c.length = if l.length % n = 0 then n else l.length % n)
      ∧ (_chunk_batches (some (n : Int)) l).flatten = l
      ∧ (l ≠ [] → _chunk_batches none l = [l] ∧ _chunk_batches (some (-1)) l = [l])
      ∧ _chunk_batches none [] = []
      ∧ _chunk_batches (some (n : Int)) [] = [] := by
  obtain ⟨m, rfl⟩ : ∃ m, n = m + 1 := ⟨n - 1, by omega⟩
  have hbridge : _chunk_batches (some ((m + 1 : Nat) : Int)) l
      = chunkedFuel (m + 1) l.length l := by
    rw [chunk_batches_some (m + 1) (by omega) l, chunked_pos l (m + 1) (by omega)]
  refine ⟨?_, ?_, ?_, ?_, ?_, rfl, ?_⟩
  · rw [hbridge, chunkedFuel_length m l.length l (le_refl _)]
    congr 1
  · rw [hbridge]
    exact chunkedFuel_dropLast m l.length l (le_refl _)
  · rw [hbridge]
    exact chunkedFuel_getLast m l.length l (le_refl _)
  · rw [hbridge]
    exact chunkedFuel_flatten m l.length l (le_refl _)
  · intro hne
    exact ⟨by rw [chunk_batches_none, chunked_full l hne],
      by rw [chunk_batches_neg_one, chunked_full l hne]⟩
  · rw [chunk_batches_some (m + 1) (by omega), chunked_pos _ _ (by omega)]
    rfl

/-- Witness for `c6_chunking` at the concrete list of five rendered
batches and chunk size two. -/
theorem c6_chunking_witness :
    0 < 2
      ∧ ((_chunk_batches (some ((2 : Nat) : Int)) [["a"], ["b"], ["c"], ["d"], ["e"]]).length
            = (5 + 2 - 1) / 2
        ∧ (∀ c ∈ (_chunk_batches (some ((2 : Nat) : Int))
              [["a"], ["b"], ["c"], ["d"], ["e"]]).dropLast, c.length = 2)
        ∧ (∀ c, (_chunk_batches (some ((2 : Nat) : Int))
              [["a"], ["b"], ["c"], ["d"], ["e"]]).getLast? = some c →
            c.length = if 5 % 2 = 0 then 2 else 5 % 2)
        ∧ (_chunk_batches (some ((2 : Nat) : Int))
              [["a"], ["b"], ["c"], ["d"], ["e"]]).flatten
            = [["a"], ["b"], ["c"], ["d"], ["e"]]
        ∧ (([["a"], ["b"], ["c"], ["d"], ["e"]] : List (List String)) ≠ [] →
            _chunk_batches none [["a"], ["b"], ["c"], ["d"], ["e"]]
                = [[["a"], ["b"], ["c"], ["d"], ["e"]]]
              ∧ _chunk_batches (some (-1)) [["a"], ["b"], ["c"], ["d"], ["e"]]
                = [[["a"], ["b"], ["c"], ["d"], ["e"]]])
        ∧ _chunk_batches none [] = []
        ∧ _chunk_batches (some ((2 : Nat) : Int)) [] = []) :=
  ⟨by decide, c6_chunking [["a"], ["b"], ["c"], ["d"], ["e"]] 2 (by decide)⟩

/-- Claim C7: the dispatch loop passes to the `i`-th launcher call an
`initial_job_idx` equal to the sum of the sizes of chunks `0..i-1`
(starting at `0`), so job indices are contiguous across the sweep, and
the per-chunk results appear in the returned list in dispatch order (the
`i`-th result is the launch of the `i`-th chunk). -/
theorem c7_job_indexing {ρ : Type} (launch : List (List String) → Nat → ρ)
    (chunks : List (List (List String))) :
    (sweepLoop launch chunks 0).length = chunks.length
      ∧ ∀ i : Nat, (sweepLoop launch chunks 0)[i]?
          = (chunks[i]?).map (fun b => launch b (((chunks.take i).map List.length).sum)) := by
  refine ⟨sweepLoop_length launch chunks 0, ?_⟩
  intro i
  have h := sweepLoop_getElem launch chunks 0 i
  simpa using h

/-- Claim C8: when the configured entrypoint identifier does not resolve,
`sweep` surfaces that resolution error to its caller, for every launcher
alike — so the sweep aborts before chunking and dispatch with zero jobs
launched. -/
theorem c8_unresolvable_entrypoint {ρ : Type}
    (resolve : String → Option (List (List (String × String))))
    (cfg : SweeperConfig) (cli : List CliOverride) (e : String)
    (h1 : cfg.entrypoint = some e) (h2 : resolve e = none) :
    ∀ launch : List (List String) → Nat → ρ,
      sweep resolve cfg launch cli = Except.error e := by
  intro launch
  have hpy : _make_python_overrides resolve cfg.entrypoint = Except.error e := by
    rw [h1]
    simp only [_make_python_overrides, h2]
  simp only [sweep, hpy]

/-- Witness for `c8_unresolvable_entrypoint` at a concrete configuration
whose entrypoint resolves to nothing. -/
theorem c8_unresolvable_entrypoint_witness :
    (SweeperConfig.mk none (some "missing.entrypoint") false).entrypoint
        = some "missing.entrypoint"
      ∧ sweep (fun _ => none) (SweeperConfig.mk none (some "missing.entrypoint") false)
          (fun _ _ => (0 : Nat)) [] = Except.error "missing.entrypoint" :=
  ⟨rfl, c8_unresolvable_entrypoint (fun _ => none)
    (SweeperConfig.mk none (some "missing.entrypoint") false) [] "missing.entrypoint"
    rfl rfl (fun _ _ => (0 : Nat))⟩

/-- Claim C10: with `max_batch_size = 0` the chunker yields zero chunks
even for a non-empty rendered batch list, so `sweep` makes no launcher
call and returns an empty result list, silently discarding every
combination. -/
theorem c10_max_batch_size_zero {ρ : Type} (l : List (List String)) (hl : l ≠ [])
    (resolve : String → Option (List (List (String × String)))) (cfg : SweeperConfig)
    (pys : List (List (String × String))) (launch : List (List String) → Nat → ρ)
    (cli : List CliOverride) (hmax : cfg.max_batch_size = some 0)
    (hpy : _make_python_overrides resolve cfg.entrypoint = Except.ok pys) :
    _chunk_batches (some 0) l = []
      ∧ sweep resolve cfg launch cli = Except.ok ([] : List ρ) := by
  refine ⟨chunk_batches_zero l, ?_⟩
  simp only [sweep, hpy]
  rw [hmax, chunk_batches_zero]
  rfl

/-- Witness for `c10_max_batch_size_zero` at a concrete non-empty batch
list and a configuration with `max_batch_size = 0`. -/
theorem c10_max_batch_size_zero_witness :
    ([["x"]] : List (List String)) ≠ []
      ∧ (_chunk_batches (some 0) [["x"]] = []
        ∧ sweep (fun _ => none) (SweeperConfig.mk (some 0) none false)
            (fun _ _ => (0 : Nat)) [] = Except.ok ([] : List Nat)) :=
  ⟨by decide, c10_max_batch_size_zero [["x"]] (by decide) (fun _ => none)
    (SweeperConfig.mk (some 0) none false) [[]] (fun _ _ => (0 : Nat)) [] rfl rfl⟩

/-- Claim C2 (spec-modelled): with a configured list of two or more
entrypoint identifiers that all resolve, the sweeper invokes each one,
takes the cartesian product across their returned sequences
(`listProd`, membership characterized pointwise by the second conjunct)
and concatenates each tuple's override sets in entrypoint-list order
(`flatten`), applying no precedence resolution between sibling
entrypoints: every pair of every chosen set survives into the merged
set (third conjunct). -/
theorem c2_multiple_entrypoints
    (resolve : String → Option (List (List (String × String))))
    (eps : List String) (rss : List (List (List (String × String))))
    (hlen : 2 ≤ eps.length)
    (hres : List.Forall₂ (fun e r => resolve e = some r) eps rss) :
    _make_python_overrides_list resolve eps
        = Except.ok ((listProd rss).map (fun configs => configs.flatten))
      ∧ (∀ c, c ∈ listProd rss ↔ List.Forall₂ (fun s entry => s ∈ entry) c rss)
      ∧ (∀ c, c ∈ listProd rss → ∀ s ∈ c, ∀ p ∈ s, p ∈ c.flatten) := by
  refine ⟨?_, ?_, ?_⟩
  · have h := resolveEntrypoints_ok resolve eps rss hres
    simp only [_make_python_overrides_list, h, merge_overrides]
  · intro c
    exact listProd_mem rss c
  · intro c _ s hs p hp
    exact List.mem_flatten.mpr ⟨s, hs, hp⟩

/-- Witness for `c2_multiple_entrypoints` with two concrete entrypoints. -/
theorem c2_multiple_entrypoints_witness :
    2 ≤ (["ep.one", "ep.two"] : List String).length
      ∧ (_make_python_overrides_list
            (fun e => if e = "ep.one" then some [[("a", "1")]]
              else if e = "ep.two" then some [[("b", "2")], [("b", "3")]] else none)
            ["ep.one", "ep.two"]
          = Except.ok ((listProd [[[("a", "1")]], [[("b", "2")], [("b", "3")]]]).map
              (fun configs => configs.flatten))
        ∧ (∀ c, c ∈ listProd [[[("a", "1")]], [[("b", "2")], [("b", "3")]]]
            ↔ List.Forall₂ (fun s entry => s ∈ entry) c
                [[[("a", "1")]], [[("b", "2")], [("b", "3")]]])
        ∧ (∀ c, c ∈ listProd [[[("a", "1")]], [[("b", "2")], [("b", "3")]]]
            → ∀ s ∈ c, ∀ p ∈ s, p ∈ c.flatten)) :=
  ⟨by decide, c2_multiple_entrypoints
    (fun e => if e = "ep.one" then some [[("a", "1")]]
      else if e = "ep.two" then some [[("b", "2")], [("b", "3")]] else none)
    ["ep.one", "ep.two"] [[[("a", "1")]], [[("b", "2")], [("b", "3")]]] (by decide)
    (List.Forall₂.cons (by decide) (List.Forall₂.cons (by decide) List.Forall₂.nil))⟩
